import Mathlib

/-!
Shallow embedding of the product-analysis pipeline implemented in
src/pages/Analysis.tsx: the helper calls parseWebsite and fetchAnalysis and
the orchestration in handleAnalyze, together with proofs of the specified
properties.  Numeric progress state is a JavaScript number, so arithmetic on
it is modelled as exact IEEE-754 binary64 rounding over the rationals.
All rational computations below are phrased through mkRat so that concrete
runs of the model reduce inside the kernel.
-/

namespace ProductAnalysis

/-! ### Exact rational operations (kernel-reducible spellings) -/

/-- Exact rational addition. -/
def qAdd (a b : ℚ) : ℚ := mkRat (a.num * b.den + b.num * a.den) (a.den * b.den)

/-- Exact rational subtraction. -/
def qSub (a b : ℚ) : ℚ := mkRat (a.num * b.den - b.num * a.den) (a.den * b.den)

/-- Exact rational multiplication. -/
def qMul (a b : ℚ) : ℚ := mkRat (a.num * b.num) (a.den * b.den)

/-- Exact rational division. -/
def qDiv (a b : ℚ) : ℚ := Rat.divInt (a.num * b.den) (a.den * b.num)

/-- Exact rational negation. -/
def qNeg (a : ℚ) : ℚ := mkRat (-a.num) a.den

/-- Absolute value of a rational. -/
def qAbs (a : ℚ) : ℚ := mkRat (Int.ofNat a.num.natAbs) a.den

/-- One half. -/
def half : ℚ := mkRat 1 2

/-! ### Binary64 arithmetic model -/

/-- Powers of two over the rationals, integer exponent. -/
def pow2 : ℤ → ℚ
  | .ofNat n => mkRat (Int.ofNat (2 ^ n)) 1
  | .negSucc n => mkRat 1 (2 ^ (n + 1))

/-- Floor of a rational number as an integer. -/
def ratFloor (q : ℚ) : ℤ := q.num.fdiv q.den

/-- Round a rational to the nearest integer, ties to even. -/
def roundEven (m : ℚ) : ℤ :=
  let fl : ℤ := ratFloor m
  let fr : ℚ := qSub m (mkRat fl 1)
  if fr < half then fl
  else if half < fr then fl + 1
  else if fl % 2 = 0 then fl else fl + 1

/-- Scan upward for the largest exponent k with 2 ^ k ≤ a (needs 1 ≤ a). -/
def ilogUp : ℕ → ℚ → ℤ → ℤ
  | 0, _, k => k
  | fuel + 1, a, k => if pow2 (k + 1) ≤ a then ilogUp fuel a (k + 1) else k

/-- Scan downward for the largest exponent k with 2 ^ k ≤ a (needs a < 1). -/
def ilogDown : ℕ → ℚ → ℤ → ℤ
  | 0, _, k => k
  | fuel + 1, a, k => if a < pow2 k then ilogDown fuel a (k - 1) else k

/-- Integer base-2 logarithm of a positive rational (correct on every value
    whose exponent fits the binary64 range, which covers all values produced
    by this pipeline). -/
def ilog2 (a : ℚ) : ℤ :=
  if 1 ≤ a then ilogUp 1100 a 0 else ilogDown 1100 a (-1)

/-- Rounding of a rational to IEEE-754 binary64 (round to nearest, ties to
    even), with unbounded exponent range: overflow and subnormal territory are
    never reached by the progress values of this pipeline.  This models how a
    JavaScript number stores the result of an arithmetic operation. -/
def fpRound (q : ℚ) : ℚ :=
  if q = 0 then 0
  else
    let a : ℚ := qAbs q
    let e : ℤ := ilog2 a - 52
    let m : ℚ := qMul a (pow2 (-e))
    let mag : ℚ := qMul (mkRat (roundEven m) 1) (pow2 e)
    if q < 0 then qNeg mag else mag

/-- JavaScript addition of two numbers. -/
def fpAdd (x y : ℚ) : ℚ := fpRound (qAdd x y)

/-- JavaScript division of two numbers. -/
def fpDiv (x y : ℚ) : ℚ := fpRound (qDiv x y)

/-! ### Response coercion: the body of fetchAnalysis after a successful
transport (src/pages/Analysis.tsx lines 129-143) -/

/-- The answer field of an llm-call response: either an already structured
    value (typeof answer is object) or text.  The structured payload type is
    abstract, because the code performs no schema validation on it. -/
inductive RawAnswer (J : Type) where
  | obj (j : J)
  | text (s : List Char)

/-- Error thrown by the coercion block; the code throws the single message
    Invalid JSON format received from the server on every failure path. -/
inductive CoerceError where
  | malformed
deriving DecidableEq

/-- Index of the first character satisfying p, if any. -/
def firstIdx (p : Char → Bool) : List Char → Option ℕ
  | [] => none
  | c :: cs => if p c then some 0 else (firstIdx p cs).map (· + 1)

/-- Test for the opening brace character. -/
def isOpenBrace (c : Char) : Bool := c = '{'

/-- Test for the closing brace character. -/
def isCloseBrace (c : Char) : Bool := c = '}'

/-- The substring matched by the greedy brace regex in fetchAnalysis: from
    the leftmost opening brace through the rightmost closing brace, provided
    the former comes strictly before the latter; none when the regex does not
    match. -/
def bracedMatch (s : List Char) : Option (List Char) :=
  match firstIdx isOpenBrace s, firstIdx isCloseBrace s.reverse with
  | some i, some r =>
    if i < s.length - 1 - r then
      some ((s.drop i).take (s.length - 1 - r - i + 1))
    else none
  | _, _ => none

/-- Outcome of the coercion block: the value returned or the error thrown,
    together with the raw payloads written to the diagnostic channel by
    console.error on the failure path (in order). -/
structure CoerceResult (J : Type) where
  result : Except CoerceError J
  loggedRaw : List (List Char)

/-- Coercion of a raw response: a structured answer is returned as is; a
    textual answer is searched for the brace-delimited substring, which is
    then parsed.  JSON.parse is a platform primitive and is passed in as the
    parameter parseJson. -/
def coerce {J : Type} (parseJson : List Char → Option J) :
    RawAnswer J → CoerceResult J
  | .obj j => ⟨.ok j, []⟩
  | .text s =>
    match bracedMatch s with
    | some sub =>
      match parseJson sub with
      | some j => ⟨.ok j, []⟩
      | none => ⟨.error .malformed, [s]⟩
    | none => ⟨.error .malformed, [s]⟩

/-! ### Extraction call (parseWebsite, lines 103-116) -/

/-- Shape of the body of a non-ok parse-website response, as observed by the
    sequence response.json() followed by reading the error property. -/
inductive ExtractFailBody where
  /-- body is not valid JSON: response.json() rejects and the catch handler
      substitutes an object carrying the generic message -/
  | notJson
  /-- body is valid JSON whose error property is the given string -/
  | errorField (s : String)
  /-- body is valid JSON whose error property holds a non-string value; the
      field records the JavaScript string conversion of that value, which is
      what the Error constructor stores as its message -/
  | errorFieldOther (stringified : String)
  /-- body is valid JSON without an error property: reading it yields
      undefined, and an Error constructed from undefined has empty message -/
  | noErrorField
deriving DecidableEq

/-- Fallback message substituted by the catch handler of parseWebsite. -/
def genericExtractionMessage : String := "Failed to parse website content."

/-- Message of the Error thrown by parseWebsite on a non-ok response. -/
def extractionErrorMessage : ExtractFailBody → String
  | .notJson => genericExtractionMessage
  | .errorField s => s
  | .errorFieldOther r => r
  | .noErrorField => ""

/-! ### Step catalog (analysisSteps, lines 326-332) -/

/-- One catalog entry: its machine key and its stage label.  The prompt texts
    are transmitted verbatim and do not influence the orchestration, so they
    are not repeated here. -/
structure AnalysisStep where
  key : String
  stage : String
deriving DecidableEq

/-- The fixed ordered catalog of the five analysis steps. -/
def analysisSteps : List AnalysisStep :=
  [⟨"foodPreference", "2/6 - Analyzing food category..."⟩,
   ⟨"healthGrade", "3/6 - Calculating health grade..."⟩,
   ⟨"riskAssessment", "4/6 - Assessing health risks..."⟩,
   ⟨"allergenAnalysis", "5/6 - Checking for allergens..."⟩,
   ⟨"nutritionFacts", "6/6 - Extracting nutrition facts..."⟩]

/-- Catalog entry at a given index. -/
def stepAt (i : Fin 5) : AnalysisStep := analysisSteps.getD i ⟨"", ""⟩

/-- totalSteps = analysisSteps.length + 1; the extra one is the parse. -/
def totalSteps : ℕ := analysisSteps.length + 1

/-- Stage label shown while the extraction call is in flight. -/
def extractionStage : String := "1/6 - Parsing website content..."

/-- The progress share 100 / totalSteps, as computed in binary64. -/
def share : ℚ := fpDiv 100 (mkRat (Int.ofNat totalSteps) 1)

/-- Progress value after the extraction update plus n successful-step
    updates, each accumulated in binary64 exactly as the code does. -/
def iterAdd (p : ℚ) : ℕ → ℚ
  | 0 => p
  | n + 1 => fpAdd (iterAdd p n) share

/-! ### Pipeline orchestration (handleAnalyze, lines 314-374) -/

/-- Observable events of one run: progress-bar updates, stage-label updates,
    the two kinds of outgoing network calls, and diagnostic logging of failed
    steps. -/
inductive Event where
  | progress (p : ℚ)
  | stage (label : String)
  | callExtract (url : String)
  | callAnalysis (key : String)
  | logStepFailure (reason : String)
deriving DecidableEq

/-- Terminal error of a run, as surfaced through setError. -/
inductive PipelineError where
  /-- an empty URL is rejected before any network activity -/
  | invalidInput
  /-- the extraction call failed; carries the thrown message -/
  | extractionError (msg : String)
  /-- every analysis step failed -/
  | allStepsFailed
deriving DecidableEq

/-- Environment of one invocation of handleAnalyze: the URL in the form
    field, the outcome of the extraction request, the settled outcome of each
    analysis step (coerced value, or the failure reason), and the order in
    which the five step promises settle. -/
structure RunEnv (J : Type) where
  url : String
  extraction : Except ExtractFailBody Unit
  stepResult : Fin 5 → Except String J
  settleOrder : List (Fin 5)

/-- Events produced synchronously while analysisSteps.map launches the five
    async callbacks: each callback updates the stage label and issues its
    fetch before suspending at its first await, in catalog order. -/
def launchEvents : List Event :=
  (analysisSteps.map (fun st => [Event.stage st.stage, Event.callAnalysis st.key])).flatten

/-- Progress updates emitted as the step promises settle, in settle order: a
    successful step adds the share to the current progress with binary64
    addition; the callback of a failed step rejects before its update runs. -/
def settleEvents {J : Type} (res : Fin 5 → Except String J) :
    List (Fin 5) → ℚ → List Event
  | [], _ => []
  | i :: rest, p =>
    match res i with
    | .ok _ => Event.progress (fpAdd p share) :: settleEvents res rest (fpAdd p share)
    | .error _ => settleEvents res rest p

/-- Contribution of one settled step to the reduce over settledResults. -/
def mergeFn {J : Type} (res : Fin 5 → Except String J) (i : Fin 5) :
    Option (String × J) :=
  match res i with
  | .ok v => some ((stepAt i).key, v)
  | .error _ => none

/-- The reduce over settledResults: fulfilled steps merge their keyed value
    into the accumulator, in catalog order. -/
def mergeResults {J : Type} (res : Fin 5 → Except String J) : List (String × J) :=
  (List.finRange 5).filterMap (mergeFn res)

/-- Diagnostic entry of one settled step in the reduce, if it was rejected. -/
def logFn {J : Type} (res : Fin 5 → Except String J) (i : Fin 5) : Option Event :=
  match res i with
  | .ok _ => none
  | .error r => some (Event.logStepFailure r)

/-- The console.error diagnostics emitted by the reduce for rejected steps,
    in catalog order. -/
def mergeLogEvents {J : Type} (res : Fin 5 → Except String J) : List Event :=
  (List.finRange 5).filterMap (logFn res)

/-- Outcome of one run: the event trace plus the result surfaced to the
    caller, a composite report or a terminal error. -/
structure RunOutcome (J : Type) where
  trace : List Event
  result : Except PipelineError (List (String × J))

/-- Events of a run that passed URL validation and whose extraction call
    succeeded, up to but not including the final completion write. -/
def baseTrace {J : Type} (env : RunEnv J) : List Event :=
  [Event.progress 0, Event.stage extractionStage, Event.callExtract env.url,
   Event.progress share]
  ++ launchEvents
  ++ settleEvents env.stepResult env.settleOrder share
  ++ mergeLogEvents env.stepResult

/-- The orchestration of handleAnalyze. -/
def run {J : Type} (env : RunEnv J) : RunOutcome J :=
  if env.url = "" then ⟨[], .error .invalidInput⟩
  else
    match env.extraction with
    | .error b =>
      ⟨[Event.progress 0, Event.stage extractionStage, Event.callExtract env.url],
       .error (.extractionError (extractionErrorMessage b))⟩
    | .ok _ =>
      if (mergeResults env.stepResult).isEmpty then
        ⟨baseTrace env, .error .allStepsFailed⟩
      else
        ⟨baseTrace env ++ [Event.progress 100], .ok (mergeResults env.stepResult)⟩

/-! ### Observables of a trace -/

/-- Progress payload of an event, if any. -/
def progressOf : Event → Option ℚ
  | .progress p => some p
  | _ => none

/-- Stage payload of an event, if any. -/
def stageOf : Event → Option String
  | .stage l => some l
  | _ => none

/-- Analysis-call payload of an event, if any. -/
def analysisCallOf : Event → Option String
  | .callAnalysis k => some k
  | _ => none

/-- Extraction-call payload of an event, if any. -/
def extractCallOf : Event → Option String
  | .callExtract u => some u
  | _ => none

/-- Progress values delivered to the progress sink, in order. -/
def progressValues (tr : List Event) : List ℚ := tr.filterMap progressOf

/-- Stage labels delivered to the sink, in order. -/
def stageValues (tr : List Event) : List String := tr.filterMap stageOf

/-- Keys of the analysis calls issued, in order. -/
def analysisCalls (tr : List Event) : List String := tr.filterMap analysisCallOf

/-- URLs of the extraction calls issued, in order. -/
def extractCalls (tr : List Event) : List String := tr.filterMap extractCallOf

/-- Whether a settled step outcome is a success. -/
def isOkStep {J : Type} (r : Except String J) : Bool := r.toOption.isSome

/-- Number of successful steps among the listed indices. -/
def countOk {J : Type} (res : Fin 5 → Except String J) (l : List (Fin 5)) : ℕ :=
  (l.filter (fun i => isOkStep (res i))).length

/-- Number of successful steps. -/
def succCount {J : Type} (res : Fin 5 → Except String J) : ℕ :=
  countOk res (List.finRange 5)

/-- Executable check that a list of rationals is monotonically
    non-decreasing. -/
def nondecreasing : List ℚ → Bool
  | [] => true
  | [_] => true
  | a :: b :: rest => decide (a ≤ b) && nondecreasing (b :: rest)

/-! ### Concrete environments used below -/

/-- A run whose extraction succeeds and whose five steps all fail. -/
def envAllFail : RunEnv Unit :=
  ⟨"https://example.com/p1", .ok (), fun _ => .error "timeout", List.finRange 5⟩

/-- A run whose extraction succeeds and whose five steps all succeed. -/
def envAllOk : RunEnv Unit :=
  ⟨"https://example.com/p1", .ok (), fun _ => .ok (), List.finRange 5⟩

/-- A run whose extraction succeeds, where the first two steps succeed and
    the other three fail. -/
def envTwoOk : RunEnv Unit :=
  ⟨"https://example.com/p1", .ok (),
   fun i => if i.val < 2 then .ok () else .error "timeout", List.finRange 5⟩

/-- A run with a non-empty URL whose extraction call fails on a body that is
    valid JSON without an error field. -/
def envNoErrorField : RunEnv Unit :=
  ⟨"https://example.com/p1", .error .noErrorField, fun _ => .error "unreached",
   List.finRange 5⟩

/-- A run with a non-empty URL whose extraction call fails on a body that is
    not valid JSON. -/
def envNotJson : RunEnv Unit :=
  ⟨"https://example.com/p1", .error .notJson, fun _ => .error "unreached",
   List.finRange 5⟩

/-- A run invoked with the empty URL. -/
def envEmptyUrl : RunEnv Unit :=
  ⟨"", .ok (), fun _ => .ok (), List.finRange 5⟩

/-! ## Helper lemmas -/

lemma finRange_five : List.finRange 5 = [0, 1, 2, 3, 4] := by decide

lemma length_finRange_five : (List.finRange 5).length = 5 := by decide

lemma stepAt_key_inj : ∀ i j : Fin 5, (stepAt i).key = (stepAt j).key → i = j := by
  decide

lemma iterAdd_shift (p : ℚ) : ∀ n, iterAdd (fpAdd p share) n = iterAdd p (n + 1) := by
  intro n
  induction n with
  | zero => rfl
  | succ n ih => simp [iterAdd, ih]

lemma chain'_iff_nondecreasing :
    ∀ l : List ℚ, List.Chain' (· ≤ ·) l ↔ nondecreasing l = true := by
  intro l
  induction l with
  | nil => simp [nondecreasing]
  | cons a t ih =>
    cases t with
    | nil => simp [nondecreasing]
    | cons b rest =>
      rw [List.chain'_cons]
      simp [nondecreasing, ih]

lemma progressValues_settleEvents {J : Type} (res : Fin 5 → Except String J) :
    ∀ (order : List (Fin 5)) (p : ℚ),
      progressValues (settleEvents res order p) =
        (List.range (countOk res order)).map (fun j => iterAdd p (j + 1)) := by
  intro order
  induction order with
  | nil => intro p; simp [settleEvents, countOk, progressValues]
  | cons i rest ih =>
    intro p
    cases h : res i with
    | ok v =>
      have h2 : countOk res (i :: rest) = countOk res rest + 1 := by
        simp [countOk, List.filter_cons, isOkStep, h, Except.toOption]
      simp only [settleEvents, h]
      rw [show progressValues (Event.progress (fpAdd p share) ::
            settleEvents res rest (fpAdd p share))
          = fpAdd p share :: progressValues (settleEvents res rest (fpAdd p share)) by
        simp [progressValues, List.filterMap_cons, progressOf]]
      rw [ih (fpAdd p share), h2, List.range_succ_eq_map, List.map_cons, List.map_map]
      refine congrArg₂ _ rfl ?_
      refine List.map_congr_left ?_
      intro j _
      exact iterAdd_shift p (j + 1)
    | error r =>
      have h2 : countOk res (i :: rest) = countOk res rest := by
        simp [countOk, List.filter_cons, isOkStep, h, Except.toOption]
      simp only [settleEvents, h]
      rw [ih p, h2]

lemma stageValues_settleEvents {J : Type} (res : Fin 5 → Except String J) :
    ∀ (order : List (Fin 5)) (p : ℚ),
      stageValues (settleEvents res order p) = [] := by
  intro order
  induction order with
  | nil => intro p; simp [settleEvents, stageValues]
  | cons i rest ih =>
    intro p
    cases h : res i with
    | ok v =>
      simp only [settleEvents, h]
      have hc : stageValues (Event.progress (fpAdd p share) ::
          settleEvents res rest (fpAdd p share))
          = stageValues (settleEvents res rest (fpAdd p share)) := by
        simp [stageValues, List.filterMap_cons, stageOf]
      rw [hc, ih (fpAdd p share)]
    | error r =>
      simp only [settleEvents, h]
      exact ih p

lemma progressValues_mergeLog {J : Type} (res : Fin 5 → Except String J) :
    progressValues (mergeLogEvents res) = [] := by
  rw [progressValues, mergeLogEvents, List.filterMap_filterMap,
    List.filterMap_eq_nil_iff]
  intro i _
  cases h : res i <;> simp [logFn, h, progressOf]

lemma stageValues_mergeLog {J : Type} (res : Fin 5 → Except String J) :
    stageValues (mergeLogEvents res) = [] := by
  rw [stageValues, mergeLogEvents, List.filterMap_filterMap,
    List.filterMap_eq_nil_iff]
  intro i _
  cases h : res i <;> simp [logFn, h, stageOf]

lemma progressValues_launch : progressValues launchEvents = [] := rfl

lemma stageValues_launch :
    stageValues launchEvents = analysisSteps.map AnalysisStep.stage := rfl

lemma run_of_empty {J : Type} (env : RunEnv J) (h : env.url = "") :
    run env = ⟨[], .error .invalidInput⟩ := by
  simp [run, h]

lemma run_of_extractFail {J : Type} (env : RunEnv J) (b : ExtractFailBody)
    (h0 : ¬env.url = "") (h1 : env.extraction = .error b) :
    run env =
      ⟨[Event.progress 0, Event.stage extractionStage, Event.callExtract env.url],
       .error (.extractionError (extractionErrorMessage b))⟩ := by
  simp [run, h0, h1]

lemma length_filterMap_mergeFn {J : Type} (res : Fin 5 → Except String J) :
    ∀ l : List (Fin 5), (l.filterMap (mergeFn res)).length = countOk res l := by
  intro l
  induction l with
  | nil => simp [countOk]
  | cons i t ih =>
    cases h : res i with
    | ok v =>
      simp [mergeFn, h, List.filterMap_cons, countOk, List.filter_cons,
        isOkStep, Except.toOption] at ih ⊢
      exact ih
    | error r =>
      simp [mergeFn, h, List.filterMap_cons, countOk, List.filter_cons,
        isOkStep, Except.toOption] at ih ⊢
      exact ih

lemma length_mergeResults {J : Type} (res : Fin 5 → Except String J) :
    (mergeResults res).length = succCount res :=
  length_filterMap_mergeFn res (List.finRange 5)

lemma map_fst_filterMap_mergeFn {J : Type} (res : Fin 5 → Except String J) :
    ∀ l : List (Fin 5),
      (l.filterMap (mergeFn res)).map Prod.fst =
        (l.filter (fun i => isOkStep (res i))).map (fun i => (stepAt i).key) := by
  intro l
  induction l with
  | nil => simp
  | cons i t ih =>
    cases h : res i with
    | ok v =>
      simp [mergeFn, h, List.filterMap_cons, List.filter_cons, isOkStep,
        Except.toOption, ih]
    | error r =>
      simp [mergeFn, h, List.filterMap_cons, List.filter_cons, isOkStep,
        Except.toOption, ih]

lemma map_fst_mergeResults {J : Type} (res : Fin 5 → Except String J) :
    (mergeResults res).map Prod.fst =
      ((List.finRange 5).filter (fun i => isOkStep (res i))).map
        (fun i => (stepAt i).key) :=
  map_fst_filterMap_mergeFn res (List.finRange 5)

lemma mergeResults_isEmpty_iff {J : Type} (res : Fin 5 → Except String J) :
    (mergeResults res).isEmpty = true ↔ succCount res = 0 := by
  rw [List.isEmpty_iff, ← List.length_eq_zero, length_mergeResults]

lemma succCount_le_five {J : Type} (res : Fin 5 → Except String J) :
    succCount res ≤ 5 := by
  have h := List.length_filter_le (fun i => isOkStep (res i)) (List.finRange 5)
  rw [length_finRange_five] at h
  exact h

lemma length_filter_lt_of_mem_false {α : Type} (p : α → Bool) :
    ∀ (l : List α) (a : α), a ∈ l → p a = false → (l.filter p).length < l.length := by
  intro l
  induction l with
  | nil => intro a ha; exact absurd ha (List.not_mem_nil a)
  | cons hd t ih =>
    intro a ha hpa
    rcases List.mem_cons.mp ha with rfl | hat
    · rw [List.filter_cons, hpa]
      have := List.length_filter_le p t
      simp
      omega
    · cases hph : p hd
      · rw [List.filter_cons, hph]
        have := ih a hat hpa
        simp
        omega
      · rw [List.filter_cons, hph]
        have := ih a hat hpa
        simp
        omega

lemma succCount_le_four_of_fail {J : Type} (res : Fin 5 → Except String J)
    (h : ∃ i : Fin 5, isOkStep (res i) = false) : succCount res ≤ 4 := by
  rcases h with ⟨i, hi⟩
  have := length_filter_lt_of_mem_false (fun j => isOkStep (res j))
    (List.finRange 5) i (List.mem_finRange i) hi
  rw [length_finRange_five] at this
  exact Nat.lt_succ_iff.mp this

lemma firstIdx_cons_true (p : Char → Bool) (c : Char) (l : List Char)
    (h : p c = true) : firstIdx p (c :: l) = some 0 := by
  simp [firstIdx, h]

lemma firstIdx_append_none (p : Char → Bool) (l1 l2 : List Char)
    (h : ∀ c ∈ l1, p c = false) :
    firstIdx p (l1 ++ l2) = (firstIdx p l2).map (· + l1.length) := by
  induction l1 with
  | nil =>
    rw [List.nil_append]
    cases hfi : firstIdx p l2 <;> simp [hfi]
  | cons c t ih =>
    have hc : p c = false := h c (List.mem_cons_self c t)
    have ht : ∀ x ∈ t, p x = false := fun x hx => h x (List.mem_cons_of_mem c hx)
    rw [List.cons_append]
    simp only [firstIdx, hc, Bool.false_eq_true, if_false, ih ht]
    cases hfi : firstIdx p l2 with
    | none => simp
    | some x => simp [Nat.add_assoc]

lemma bracedMatch_of_shape (pre mid post : List Char)
    (hpre : ∀ c ∈ pre, isOpenBrace c = false)
    (hpost : ∀ c ∈ post, isCloseBrace c = false)
    (hhead : mid.head? = some '{')
    (hlast : mid.getLast? = some '}') :
    bracedMatch (pre ++ mid ++ post) = some mid := by
  obtain ⟨m0, mtail, rfl⟩ : ∃ m0 mtail, mid = m0 :: mtail := by
    cases mid with
    | nil => simp at hhead
    | cons a t => exact ⟨a, t, rfl⟩
  have hm0 : m0 = '{' := by simpa using hhead
  subst hm0
  have hlen2 : 2 ≤ ('{' :: mtail).length := by
    cases mtail with
    | nil => simp at hlast
    | cons b t => simp
  have hfirst : firstIdx isOpenBrace (pre ++ ('{' :: mtail) ++ post)
      = some pre.length := by
    rw [List.append_assoc, firstIdx_append_none _ _ _ hpre,
      show ('{' :: mtail) ++ post = '{' :: (mtail ++ post) from rfl,
      firstIdx_cons_true isOpenBrace '{' (mtail ++ post) (by decide)]
    simp
  have hrev : (pre ++ ('{' :: mtail) ++ post).reverse
      = post.reverse ++ (('{' :: mtail).reverse ++ pre.reverse) := by
    simp [List.reverse_append, List.append_assoc]
  obtain ⟨rtail, hr⟩ : ∃ rtail, ('{' :: mtail).reverse = '}' :: rtail := by
    have hh : ('{' :: mtail).reverse.head? = some '}' := by
      rw [List.head?_reverse]; exact hlast
    cases hrc : ('{' :: mtail).reverse with
    | nil => rw [hrc] at hh; simp at hh
    | cons a t =>
      rw [hrc] at hh
      simp at hh
      exact ⟨t, by rw [hh]⟩
  have hpostrev : ∀ c ∈ post.reverse, isCloseBrace c = false :=
    fun c hc => hpost c (List.mem_reverse.mp hc)
  have hlastIdx : firstIdx isCloseBrace (pre ++ ('{' :: mtail) ++ post).reverse
      = some post.length := by
    rw [hrev, firstIdx_append_none _ _ _ hpostrev, hr, List.cons_append,
      firstIdx_cons_true isCloseBrace '}' (rtail ++ pre.reverse) (by decide)]
    simp
  have hlensum : (pre ++ ('{' :: mtail) ++ post).length
      = pre.length + ('{' :: mtail).length + post.length := by
    simp [List.length_append]
    omega
  simp only [bracedMatch, hfirst, hlastIdx]
  rw [hlensum]
  rw [if_pos (by omega : pre.length <
    pre.length + ('{' :: mtail).length + post.length - 1 - post.length)]
  have harith : pre.length + ('{' :: mtail).length + post.length - 1 - post.length
      - pre.length + 1 = ('{' :: mtail).length := by omega
  rw [harith, List.append_assoc, List.drop_left, List.take_left]

lemma progressValues_append (a b : List Event) :
    progressValues (a ++ b) = progressValues a ++ progressValues b :=
  List.filterMap_append a b progressOf

lemma stageValues_append (a b : List Event) :
    stageValues (a ++ b) = stageValues a ++ stageValues b :=
  List.filterMap_append a b stageOf

lemma progressValues_run_ok {J : Type} (env : RunEnv J) (h0 : ¬env.url = "")
    (h1 : env.extraction = .ok ()) (hperm : env.settleOrder.Perm (List.finRange 5)) :
    progressValues (run env).trace =
      [0, share] ++
      (List.range (succCount env.stepResult)).map (fun j => iterAdd share (j + 1)) ++
      (if succCount env.stepResult = 0 then [] else [100]) := by
  have hcount : countOk env.stepResult env.settleOrder = succCount env.stepResult :=
    List.Perm.length_eq (hperm.filter _)
  have hpfx : progressValues [Event.progress 0, Event.stage extractionStage,
      Event.callExtract env.url, Event.progress share] = [0, share] := rfl
  have hbase : progressValues (baseTrace env) =
      0 :: share :: (List.range (succCount env.stepResult)).map
        (fun j => iterAdd share (j + 1)) := by
    rw [baseTrace]
    simp only [progressValues_append, hpfx, progressValues_launch,
      progressValues_mergeLog,
      progressValues_settleEvents env.stepResult env.settleOrder share, hcount]
    simp
  by_cases hm : (mergeResults env.stepResult).isEmpty = true
  · have hz : succCount env.stepResult = 0 := (mergeResults_isEmpty_iff _).mp hm
    have hrun : run env = ⟨baseTrace env, .error .allStepsFailed⟩ := by
      simp [run, h0, h1, hm]
    rw [hrun]
    show progressValues (baseTrace env) = _
    rw [hbase, hz]
    simp
  · have hz : succCount env.stepResult ≠ 0 :=
      fun hc => hm ((mergeResults_isEmpty_iff _).mpr hc)
    have hrun : run env =
        ⟨baseTrace env ++ [Event.progress 100], .ok (mergeResults env.stepResult)⟩ := by
      simp [run, h0, h1, hm]
    rw [hrun]
    show progressValues (baseTrace env ++ [Event.progress 100]) = _
    rw [progressValues_append, hbase]
    simp [hz]
    rfl

/-! ## Claim theorems -/

/-- C6: for text containing one well-formed JSON object, delimited by the
    leftmost opening brace and the rightmost closing brace and surrounded by
    brace-free prose, coerce returns exactly the value obtained by parsing
    that object directly; and an already structured answer is returned
    unchanged, with no schema validation (the payload type is arbitrary). -/
theorem coerce_roundtrip {J : Type} (parseJson : List Char → Option J) :
    (∀ (pre mid post : List Char) (v : J),
      (∀ c ∈ pre, isOpenBrace c = false) →
      (∀ c ∈ post, isCloseBrace c = false) →
      mid.head? = some '{' → mid.getLast? = some '}' →
      parseJson mid = some v →
      coerce parseJson (.text (pre ++ mid ++ post)) = ⟨.ok v, []⟩) ∧
    (∀ j : J, coerce parseJson (.obj j) = ⟨.ok j, []⟩) := by
  constructor
  · intro pre mid post v hpre hpost hhead hlast hparse
    have hb := bracedMatch_of_shape pre mid post hpre hpost hhead hlast
    have hb' : bracedMatch (pre ++ (mid ++ post)) = some mid := by
      rw [← List.append_assoc]; exact hb
    simp [coerce, hb, hb', hparse]
  · intro j
    rfl

/-- Witness for coerce_roundtrip at a concrete prose-wrapped JSON object and
    a concrete structured value. -/
theorem coerce_roundtrip_witness :
    coerce (fun l => if l = ['{', 'x', '}'] then some 7 else none)
      (.text (['a', ' '] ++ ['{', 'x', '}'] ++ [' ', 'b'])) = ⟨.ok 7, []⟩ ∧
    coerce (fun l => if l = ['{', 'x', '}'] then some 7 else none)
      (.obj 9) = ⟨.ok 9, []⟩ :=
  ⟨(coerce_roundtrip _).1 ['a', ' '] ['{', 'x', '}'] [' ', 'b'] 7
      (by decide) (by decide) rfl rfl (by decide),
   (coerce_roundtrip _).2 9⟩

/-- C7: when the text has no brace-delimited substring, or its
    brace-delimited substring does not parse as JSON, coerce fails with the
    malformed-response error and the raw payload is logged to the diagnostic
    channel before the error propagates. -/
theorem coerce_malformed_logs {J : Type} (parseJson : List Char → Option J)
    (s : List Char)
    (h : ∀ sub, bracedMatch s = some sub → parseJson sub = none) :
    (coerce parseJson (.text s)).result = .error .malformed ∧
    (coerce parseJson (.text s)).loggedRaw = [s] := by
  cases hb : bracedMatch s with
  | none => simp [coerce, hb]
  | some sub =>
    have hp := h sub hb
    simp [coerce, hb, hp]

/-- Witness for coerce_malformed_logs at a concrete text with an unmatched
    opening brace. -/
theorem coerce_malformed_logs_witness :
    (coerce (fun _ => (none : Option Nat)) (.text ['a', '{', 'b'])).result
      = .error .malformed ∧
    (coerce (fun _ => (none : Option Nat)) (.text ['a', '{', 'b'])).loggedRaw
      = [['a', '{', 'b']] :=
  coerce_malformed_logs _ ['a', '{', 'b'] (fun _ _ => rfl)

/-- C9: an invocation with the empty URL fails immediately with the
    invalid-input error, produces no events at all, and in particular issues
    neither an extraction call nor any analysis call. -/
theorem empty_url_rejected {J : Type} (env : RunEnv J) (h : env.url = "") :
    (run env).result = .error .invalidInput ∧ (run env).trace = [] ∧
    extractCalls (run env).trace = [] ∧ analysisCalls (run env).trace = [] := by
  rw [run_of_empty env h]
  exact ⟨rfl, rfl, rfl, rfl⟩

/-- Witness for empty_url_rejected at the concrete empty-URL environment. -/
theorem empty_url_rejected_witness :
    (run envEmptyUrl).result = .error .invalidInput ∧
    (run envEmptyUrl).trace = [] ∧
    extractCalls (run envEmptyUrl).trace = [] ∧
    analysisCalls (run envEmptyUrl).trace = [] :=
  empty_url_rejected envEmptyUrl rfl

/-- C2: with a non-empty URL, if the extraction call fails then the run fails
    with the extraction error (carrying the message built by parseWebsite)
    and no analysis call is ever issued. -/
theorem extraction_failure_aborts_run {J : Type} (env : RunEnv J)
    (b : ExtractFailBody) (h0 : env.url ≠ "") (h1 : env.extraction = .error b) :
    (run env).result = .error (.extractionError (extractionErrorMessage b)) ∧
    analysisCalls (run env).trace = [] := by
  rw [run_of_extractFail env b h0 h1]
  exact ⟨rfl, rfl⟩

/-- Witness for extraction_failure_aborts_run at a concrete failing
    extraction. -/
theorem extraction_failure_aborts_run_witness :
    (run envNotJson).result =
      .error (.extractionError (extractionErrorMessage .notJson)) ∧
    analysisCalls (run envNotJson).trace = [] :=
  extraction_failure_aborts_run envNotJson .notJson (by decide) rfl

/-- C3: if the extraction succeeds but every analysis step fails, the run
    fails with the all-steps-failed error. -/
theorem all_steps_failed_error {J : Type} (env : RunEnv J)
    (h0 : env.url ≠ "") (h1 : env.extraction = .ok ())
    (h2 : ∀ i : Fin 5, isOkStep (env.stepResult i) = false) :
    (run env).result = .error .allStepsFailed := by
  have hfil : (List.finRange 5).filter (fun i => isOkStep (env.stepResult i)) = [] := by
    apply List.filter_eq_nil_iff.mpr
    intro a _
    simp [h2 a]
  have hz : succCount env.stepResult = 0 := by
    simp [succCount, countOk, hfil]
  have hm : (mergeResults env.stepResult).isEmpty = true :=
    (mergeResults_isEmpty_iff _).mpr hz
  simp [run, h0, h1, hm]

/-- Witness for all_steps_failed_error at the concrete all-failing run. -/
theorem all_steps_failed_error_witness :
    (run envAllFail).result = .error .allStepsFailed :=
  all_steps_failed_error envAllFail (by decide) rfl (fun _ => rfl)

/-- C1: if the extraction succeeds and at least one analysis step succeeds,
    the run resolves with a report whose keys are exactly the keys of the
    successful steps (none of a failed step), and whose size equals the
    number of successful steps. -/
theorem run_success_report_keys {J : Type} (env : RunEnv J)
    (h0 : env.url ≠ "") (h1 : env.extraction = .ok ())
    (h2 : ∃ i : Fin 5, isOkStep (env.stepResult i) = true) :
    ∃ rep, (run env).result = .ok rep ∧
      rep.map Prod.fst =
        ((List.finRange 5).filter (fun i => isOkStep (env.stepResult i))).map
          (fun i => (stepAt i).key) ∧
      (∀ i : Fin 5, isOkStep (env.stepResult i) = false →
        (stepAt i).key ∉ rep.map Prod.fst) ∧
      rep.length = succCount env.stepResult := by
  have hz : succCount env.stepResult ≠ 0 := by
    rcases h2 with ⟨i, hi⟩
    have hmem : i ∈ (List.finRange 5).filter (fun j => isOkStep (env.stepResult j)) :=
      List.mem_filter.mpr ⟨List.mem_finRange i, hi⟩
    have hpos : 0 < succCount env.stepResult :=
      List.length_pos.mpr (List.ne_nil_of_mem hmem)
    omega
  have hm : (mergeResults env.stepResult).isEmpty = false := by
    cases hb : (mergeResults env.stepResult).isEmpty
    · rfl
    · exact absurd ((mergeResults_isEmpty_iff _).mp hb) hz
  refine ⟨mergeResults env.stepResult, ?_, ?_, ?_, ?_⟩
  · simp [run, h0, h1, hm]
  · exact map_fst_mergeResults env.stepResult
  · intro i hi
    rw [map_fst_mergeResults env.stepResult]
    intro hmem
    rcases List.mem_map.mp hmem with ⟨j, hjmem, hjkey⟩
    rcases List.mem_filter.mp hjmem with ⟨-, hjok⟩
    have hji := stepAt_key_inj j i hjkey
    subst hji
    simp [hi] at hjok
  · exact length_mergeResults env.stepResult

/-- Witness for run_success_report_keys at the run where exactly the first
    two steps succeed. -/
theorem run_success_report_keys_witness :
    ∃ rep, (run envTwoOk).result = .ok rep ∧
      rep.map Prod.fst =
        ((List.finRange 5).filter (fun i => isOkStep (envTwoOk.stepResult i))).map
          (fun i => (stepAt i).key) ∧
      (∀ i : Fin 5, isOkStep (envTwoOk.stepResult i) = false →
        (stepAt i).key ∉ rep.map Prod.fst) ∧
      rep.length = succCount envTwoOk.stepResult :=
  run_success_report_keys envTwoOk (by decide) rfl ⟨0, rfl⟩

/-- C8 counterexample: an extraction failure whose body is valid JSON without
    an error field yields an error message that is empty rather than the
    generic fallback, refuting the claim that any failure body not of the
    shape with a string error field gets the generic message. -/
theorem extraction_message_fallback_cex :
    (run envNoErrorField).result = .error (.extractionError "") ∧
    extractionErrorMessage ExtractFailBody.noErrorField ≠ genericExtractionMessage := by
  constructor
  · rfl
  · decide

/-- C8 amended: the extraction error carries the server-supplied message when
    the failure body is valid JSON with a string error field; the generic
    fallback is substituted exactly when the body is not valid JSON; a valid
    JSON body without an error field yields an empty message. -/
theorem extraction_message_amended {J : Type} (env : RunEnv J)
    (b : ExtractFailBody) (h0 : env.url ≠ "") (h1 : env.extraction = .error b) :
    (run env).result = .error (.extractionError (extractionErrorMessage b)) ∧
    (∀ s, extractionErrorMessage (.errorField s) = s) ∧
    extractionErrorMessage .notJson = genericExtractionMessage ∧
    extractionErrorMessage .noErrorField = "" := by
  rw [run_of_extractFail env b h0 h1]
  exact ⟨rfl, fun _ => rfl, rfl, rfl⟩

/-- Witness for extraction_message_amended at a concrete failing
    extraction. -/
theorem extraction_message_amended_witness :
    (run envNoErrorField).result =
      .error (.extractionError (extractionErrorMessage .noErrorField)) ∧
    (∀ s, extractionErrorMessage (.errorField s) = s) ∧
    extractionErrorMessage .notJson = genericExtractionMessage ∧
    extractionErrorMessage .noErrorField = "" :=
  extraction_message_amended envNoErrorField .noErrorField (by decide) rfl

/-- C10: in a run whose extraction succeeded, the stage labels delivered to
    the sink are exactly the extraction label followed by the five catalog
    labels in catalog order; they are all written during the synchronous
    launch of the fan-out (the remainder of the trace contains no stage
    write), independently of the settle order and of the step outcomes. -/
theorem stage_labels_catalog_order {J : Type} (env : RunEnv J)
    (h0 : env.url ≠ "") (h1 : env.extraction = .ok ()) :
    stageValues (run env).trace =
      extractionStage :: analysisSteps.map AnalysisStep.stage ∧
    ∃ tail, (run env).trace =
      [Event.progress 0, Event.stage extractionStage, Event.callExtract env.url,
        Event.progress share] ++ launchEvents ++ tail ∧
      stageValues tail = [] := by
  have hsv : stageValues (baseTrace env) =
      extractionStage :: analysisSteps.map AnalysisStep.stage := by
    rw [baseTrace]
    simp only [stageValues_append,
      show stageValues [Event.progress 0, Event.stage extractionStage,
        Event.callExtract env.url, Event.progress share] = [extractionStage] from rfl,
      stageValues_launch,
      stageValues_settleEvents env.stepResult env.settleOrder share,
      stageValues_mergeLog]
    simp
  by_cases hm : (mergeResults env.stepResult).isEmpty = true
  · have hrun : run env = ⟨baseTrace env, .error .allStepsFailed⟩ := by
      simp [run, h0, h1, hm]
    rw [hrun]
    refine ⟨hsv, settleEvents env.stepResult env.settleOrder share ++
      mergeLogEvents env.stepResult, ?_, ?_⟩
    · show baseTrace env = _
      rw [baseTrace]
      simp [List.append_assoc]
    · rw [stageValues_append,
        stageValues_settleEvents env.stepResult env.settleOrder share,
        stageValues_mergeLog]
      rfl
  · have hrun : run env =
        ⟨baseTrace env ++ [Event.progress 100], .ok (mergeResults env.stepResult)⟩ := by
      simp [run, h0, h1, hm]
    rw [hrun]
    constructor
    · show stageValues (baseTrace env ++ [Event.progress 100]) = _
      rw [stageValues_append, hsv]
      rfl
    · refine ⟨settleEvents env.stepResult env.settleOrder share ++
        mergeLogEvents env.stepResult ++ [Event.progress 100], ?_, ?_⟩
      · show baseTrace env ++ [Event.progress 100] = _
        rw [baseTrace]
        simp [List.append_assoc]
      · rw [stageValues_append, stageValues_append,
          stageValues_settleEvents env.stepResult env.settleOrder share,
          stageValues_mergeLog]
        rfl

/-- Witness for stage_labels_catalog_order at the concrete all-failing
    run. -/
theorem stage_labels_catalog_order_witness :
    stageValues (run envAllFail).trace =
      extractionStage :: analysisSteps.map AnalysisStep.stage ∧
    ∃ tail, (run envAllFail).trace =
      [Event.progress 0, Event.stage extractionStage,
        Event.callExtract envAllFail.url,
        Event.progress share] ++ launchEvents ++ tail ∧
      stageValues tail = [] :=
  stage_labels_catalog_order envAllFail (by decide) rfl

/-- C4 counterexample: in the run where all five steps fail, no settle-time
    progress update happens at all, so after all steps settle the progress
    trace has only the two pre-fan-out values instead of one update per
    attempted step. -/
theorem progress_counts_attempts_cex :
    progressValues (run envAllFail).trace = [0, share] ∧
    (progressValues (run envAllFail).trace).length ≠ 1 + totalSteps := by
  constructor
  · rfl
  · decide

/-- C4 amended: a settle-time progress update is emitted only when the
    settling step succeeded, so after all steps settle the progress values
    reflect the number of successful steps (one binary64 increment of the
    share per success), not the number attempted. -/
theorem progress_counts_successes {J : Type} (env : RunEnv J)
    (h0 : env.url ≠ "") (h1 : env.extraction = .ok ())
    (hperm : env.settleOrder.Perm (List.finRange 5)) :
    progressValues (run env).trace =
      [0, share] ++
      (List.range (succCount env.stepResult)).map (fun j => iterAdd share (j + 1)) ++
      (if succCount env.stepResult = 0 then [] else [100]) :=
  progressValues_run_ok env h0 h1 hperm

/-- Witness for progress_counts_successes at the run where exactly the first
    two steps succeed. -/
theorem progress_counts_successes_witness :
    progressValues (run envTwoOk).trace =
      [0, share] ++
      (List.range (succCount envTwoOk.stepResult)).map
        (fun j => iterAdd share (j + 1)) ++
      (if succCount envTwoOk.stepResult = 0 then [] else [100]) :=
  progress_counts_successes envTwoOk (by decide) rfl (List.Perm.refl _)

/-- C5 counterexample: in the run where all five steps succeed, the progress
    values delivered to the sink are not monotonically non-decreasing: the
    five binary64 increments overshoot 100 by one ulp, and the final write of
    exactly 100 steps back down. -/
theorem progress_monotone_cex :
    ¬ List.Chain' (· ≤ ·) (progressValues (run envAllOk).trace) := by
  rw [chain'_iff_nondecreasing]
  decide

/-- C5 amended: progress reaches exactly 100 iff the run resolves
    successfully; the progress sequence is monotonically non-decreasing up to
    its final value, and it is non-decreasing throughout whenever at least
    one step fails (only the all-success run overshoots 100 before the final
    write of 100). -/
theorem progress_monotone_amended {J : Type} (env : RunEnv J)
    (hperm : env.settleOrder.Perm (List.finRange 5)) :
    (100 ∈ progressValues (run env).trace ↔
      ∃ rep, (run env).result = .ok rep) ∧
    List.Chain' (· ≤ ·) ((progressValues (run env).trace).dropLast) ∧
    ((∃ i : Fin 5, isOkStep (env.stepResult i) = false) →
      List.Chain' (· ≤ ·) (progressValues (run env).trace)) := by
  by_cases h0 : env.url = ""
  · rw [run_of_empty env h0]
    refine ⟨?_, ?_, fun _ => ?_⟩
    · simp [progressValues]
    · simp [progressValues]
    · simp [progressValues]
  · cases h1 : env.extraction with
    | error b =>
      rw [run_of_extractFail env b h0 h1]
      have hone : progressValues [Event.progress 0, Event.stage extractionStage,
          Event.callExtract env.url] = [0] := rfl
      refine ⟨?_, ?_, fun _ => ?_⟩
      · show (100 : ℚ) ∈ progressValues [Event.progress 0,
          Event.stage extractionStage, Event.callExtract env.url] ↔ _
        rw [hone]
        constructor
        · intro hmem
          simp at hmem
        · rintro ⟨rep, hrep⟩
          simp at hrep
      · show List.Chain' (· ≤ ·) ((progressValues [Event.progress 0,
          Event.stage extractionStage, Event.callExtract env.url]).dropLast)
        rw [hone]
        simp
      · show List.Chain' (· ≤ ·) (progressValues [Event.progress 0,
          Event.stage extractionStage, Event.callExtract env.url])
        rw [hone]
        exact List.chain'_singleton 0
    | ok u =>
      cases u
      have hvals := progressValues_run_ok env h0 h1 hperm
      refine ⟨?_, ?_, ?_⟩
      · rw [hvals]
        by_cases hz : succCount env.stepResult = 0
        · rw [hz]
          have hm : (mergeResults env.stepResult).isEmpty = true :=
            (mergeResults_isEmpty_iff _).mpr hz
          have hres : (run env).result = .error .allStepsFailed := by
            simp [run, h0, h1, hm]
          rw [hres]
          constructor
          · intro hmem
            simp at hmem
            exact absurd hmem (by decide)
          · rintro ⟨rep, hrep⟩
            simp at hrep
        · have hm : (mergeResults env.stepResult).isEmpty = false := by
            cases hb : (mergeResults env.stepResult).isEmpty
            · rfl
            · exact absurd ((mergeResults_isEmpty_iff _).mp hb) hz
          constructor
          · intro _
            exact ⟨mergeResults env.stepResult, by simp [run, h0, h1, hm]⟩
          · intro _
            simp [hz]
      · rw [hvals]
        have h5 := succCount_le_five env.stepResult
        have hcases : succCount env.stepResult = 0 ∨ succCount env.stepResult = 1 ∨
            succCount env.stepResult = 2 ∨ succCount env.stepResult = 3 ∨
            succCount env.stepResult = 4 ∨ succCount env.stepResult = 5 := by
          omega
        rcases hcases with h | h | h | h | h | h <;>
          rw [h, chain'_iff_nondecreasing] <;> decide
      · intro hfail
        rw [hvals]
        have h4 := succCount_le_four_of_fail env.stepResult hfail
        have hcases : succCount env.stepResult = 0 ∨ succCount env.stepResult = 1 ∨
            succCount env.stepResult = 2 ∨ succCount env.stepResult = 3 ∨
            succCount env.stepResult = 4 := by
          omega
        rcases hcases with h | h | h | h | h <;>
          rw [h, chain'_iff_nondecreasing] <;> decide

/-- Witness for progress_monotone_amended at the run where exactly the first
    two steps succeed. -/
theorem progress_monotone_amended_witness :
    (100 ∈ progressValues (run envTwoOk).trace ↔
      ∃ rep, (run envTwoOk).result = .ok rep) ∧
    List.Chain' (· ≤ ·) ((progressValues (run envTwoOk).trace).dropLast) ∧
    ((∃ i : Fin 5, isOkStep (envTwoOk.stepResult i) = false) →
      List.Chain' (· ≤ ·) (progressValues (run envTwoOk).trace)) :=
  progress_monotone_amended envTwoOk (List.Perm.refl _)

end ProductAnalysis
